import Mathlib

/-!
Shallow embedding of page_rank.py: graph loading, the stochastic
random-walk PageRank estimator, the distribution power-iteration
estimator, and the driver orchestration.  Python dicts become
insertion-ordered association lists, floats become rationals, the
random source becomes an explicit stream of naturals, and runtime
exceptions become an explicit error type.
-/

namespace PageRank

/-- Node identifiers are URL strings, modelled as lists of characters. -/
abbrev Node := List Char

/-- A graph is an insertion-ordered association list from a node to its
ordered sequence of out-edge targets, mirroring the Python dict of lists
built by load_graph. -/
abbrev Graph := List (Node × List Node)

/-- A node-to-score mapping, mirroring a Python dict of floats. -/
abbrev Dist := List (Node × ℚ)

/-- Runtime exceptions of the Python program.  The format error raised
when a line does not unpack into two tokens is the FormatError of the
specification. -/
inductive PyError where
  | keyError (k : Node)
  | zeroDivisionError
  | indexError
  | formatError
  deriving DecidableEq

instance [DecidableEq ε] [DecidableEq α] : DecidableEq (Except ε α) := fun x y =>
  match x, y with
  | .ok a, .ok b =>
    if h : a = b then .isTrue (by rw [h])
    else .isFalse (by intro hh; cases hh; exact h rfl)
  | .error a, .error b =>
    if h : a = b then .isTrue (by rw [h])
    else .isFalse (by intro hh; cases hh; exact h rfl)
  | .ok _, .error _ => .isFalse (by intro hh; cases hh)
  | .error _, .ok _ => .isFalse (by intro hh; cases hh)

/-- True exactly on a successful result. -/
def okB : Except PyError α → Bool
  | .ok _ => true
  | .error _ => false

/-- True exactly when the result is a key-lookup error. -/
def isKeyErr : Except PyError α → Bool
  | .error (.keyError _) => true
  | _ => false

/-- Helper for splitWS: acc holds the current token reversed. -/
def splitWSAux (acc : List Char) : List Char → List (List Char)
  | [] => if acc.isEmpty then [] else [acc.reverse]
  | c :: cs =>
    if c.isWhitespace then
      if acc.isEmpty then splitWSAux [] cs else acc.reverse :: splitWSAux [] cs
    else splitWSAux (c :: acc) cs

/-- Python str.split with no argument: split on runs of whitespace,
discarding empty tokens. -/
def splitWS (line : List Char) : List (List Char) := splitWSAux [] line

/-- The unpacking node, target = line.split() in load_graph: succeeds
exactly when the line has exactly two tokens, else raises the format
error. -/
def parseLine (l : List Char) : Except PyError (Node × Node) :=
  match splitWS l with
  | [n, t] => .ok (n, t)
  | _ => .error .formatError

/-- One line of load_graph: append target to the adjacency sequence of
node if present, else create the singleton sequence, keeping dict
insertion order. -/
def appendEdge : Graph → Node → Node → Graph
  | [], n, t => [(n, [t])]
  | (a, ts) :: rest, n, t =>
    if a = n then (a, ts ++ [t]) :: rest else (a, ts) :: appendEdge rest n t

/-- The line-by-line loop of load_graph over the remaining lines, with
the graph built so far. -/
def loadAux : Graph → List (List Char) → Except PyError Graph
  | g, [] => .ok g
  | g, l :: ls =>
    match parseLine l with
    | .error e => .error e
    | .ok (n, t) => loadAux (appendEdge g n t) ls

/-- load_graph from page_rank.py, over a list of input lines. -/
def load_graph (lines : List (List Char)) : Except PyError Graph :=
  loadAux [] lines

/-- Node count reported by print_stats: len(graph). -/
def numNodes (g : Graph) : Nat := g.length

/-- Edge count reported by print_stats: the sum of the adjacency
sequence lengths. -/
def numEdges (g : Graph) : Nat := (g.map (fun p => p.2.length)).sum

/-- The keys of a dict, in insertion order. -/
def keys (g : List (Node × α)) : List Node := g.map Prod.fst

/-- Dict lookup: first value stored under the key, if any. -/
def lookupKey : List (Node × α) → Node → Option α
  | [], _ => none
  | (a, x) :: rest, k => if a = k then some x else lookupKey rest k

/-- Out-degree of a node: the length of its adjacency sequence, zero
when the node is not a key of the graph. -/
def outDegree (g : Graph) (n : Node) : Nat :=
  ((lookupKey g n).getD []).length

/-- Every node, including every edge target, has positive out-degree:
the hypothesis under which both estimators are claimed to conserve
probability mass. -/
abbrev positiveOutClosed (g : Graph) : Prop :=
  (∀ p ∈ g, 0 < outDegree g p.1) ∧ ∀ p ∈ g, ∀ t ∈ p.2, 0 < outDegree g t

/-- The in-place update d[k] += v of a Python dict: fails with a key
error when k is not a key. -/
def addKey : Dist → Node → ℚ → Option Dist
  | [], _, _ => none
  | (a, x) :: rest, k, v =>
    if a = k then some ((a, x + v) :: rest)
    else (addKey rest k v).map (fun d => (a, x) :: d)

/-- The inner loop of a sweep: next_prob[target] += p for each target in
the adjacency sequence, failing with a key error on a target that is not
a key of next_prob. -/
def addTargets (p : ℚ) : Dist → List Node → Except PyError Dist
  | d, [] => .ok d
  | d, t :: ts =>
    match addKey d t p with
    | none => .error (.keyError t)
    | some d2 => addTargets p d2 ts

/-- The dict mapping every key of the graph to zero, in key order. -/
def zeroDist (g : Graph) : Dist := g.map (fun q => (q.1, 0))

/-- The per-node loop of one sweep of distribution_page_rank, over the
remaining graph entries, threading next_prob.  Computes
p = node_prob[node] / out_degree(node) (a zero division error when the
out-degree is zero) and distributes p to the targets. -/
def sweepAux (np : Dist) : List (Node × List Node) → Dist → Except PyError Dist
  | [], next => .ok next
  | (n, ts) :: rest, next =>
    match lookupKey np n with
    | none => .error (.keyError n)
    | some q =>
      if ts.length = 0 then .error .zeroDivisionError
      else
        match addTargets (q / (ts.length : ℚ)) next ts with
        | .error e => .error e
        | .ok next2 => sweepAux np rest next2

/-- One sweep of distribution_page_rank: build next_prob zero-initialized
over the key set and propagate every node's mass along its out-edges. -/
def sweep (g : Graph) (np : Dist) : Except PyError Dist :=
  sweepAux np g (zeroDist g)

/-- The sweep loop of distribution_page_rank: n_iter sweeps from the
given node_prob. -/
def dprIter (g : Graph) : Nat → Dist → Except PyError Dist
  | 0, np => .ok np
  | k + 1, np =>
    match sweep g np with
    | .error e => .error e
    | .ok np2 => dprIter g k np2

/-- The initial node_prob of distribution_page_rank: every key of the
graph mapped to one over the node count. -/
def uniformDist (g : Graph) : Dist :=
  g.map (fun p => (p.1, 1 / (g.length : ℚ)))

/-- distribution_page_rank from page_rank.py. -/
def distribution_page_rank (g : Graph) (n_iter : Nat) : Except PyError Dist :=
  dprIter g n_iter (uniformDist g)

/-- The sum of the values of a dict of scores. -/
def sumValues (d : Dist) : ℚ := (d.map Prod.snd).sum

/-- random.choice over a sequence, with the random draw r supplied by
the explicit random stream: an index error on an empty sequence, else
the element at index r modulo the length. -/
def pyChoice (r : Nat) (l : List Node) : Except PyError Node :=
  if l.isEmpty then .error .indexError
  else .ok (l.getD (r % l.length) [])

/-- One random walk of stochastic_page_rank: from the current node,
follow a uniformly chosen out-edge for the given number of steps,
consuming one draw of the stream per step; fails with a key error when
the current node is not a key of the graph. -/
def walk (g : Graph) (rnd : Nat → Nat) : Nat → Node → Nat → Except PyError (Node × Nat)
  | 0, cur, c => .ok (cur, c)
  | k + 1, cur, c =>
    match lookupKey g cur with
    | none => .error (.keyError cur)
    | some ts =>
      match pyChoice (rnd c) ts with
      | .error e => .error e
      | .ok nxt => walk g rnd k nxt (c + 1)

/-- The outer loop of stochastic_page_rank: for each of the remaining
iterations pick a random start key, walk n_steps steps, and add
1 / n_total to the landing node's count. -/
def sprLoop (g : Graph) (rnd : Nat → Nat) (n_total n_steps : Nat) :
    Nat → Dist → Nat → Except PyError (Dist × Nat)
  | 0, hc, c => .ok (hc, c)
  | k + 1, hc, c =>
    match pyChoice (rnd c) (keys g) with
    | .error e => .error e
    | .ok start =>
      match walk g rnd n_steps start (c + 1) with
      | .error e => .error e
      | .ok (landing, c2) =>
        match addKey hc landing (1 / (n_total : ℚ)) with
        | none => .error (.keyError landing)
        | some hc2 => sprLoop g rnd n_total n_steps k hc2 c2

/-- stochastic_page_rank from page_rank.py, with the random source made
an explicit stream of naturals. -/
def stochastic_page_rank (g : Graph) (rnd : Nat → Nat)
    (n_iter n_steps : Nat) : Except PyError Dist :=
  match sprLoop g rnd n_iter n_steps n_iter (zeroDist g) 0 with
  | .error e => .error e
  | .ok (hc, _) => .ok hc

/-- The graph diameter constant supplied by main. -/
def diameter : Nat := 3

/-- Stable insertion of a pair into a list already sorted by descending
score: the pair goes after every earlier pair of greater or equal
score. -/
def insertDesc (x : Node × ℚ) : List (Node × ℚ) → List (Node × ℚ)
  | [] => [x]
  | y :: ys => if y.2 < x.2 then x :: y :: ys else y :: insertDesc x ys

/-- Python sorted with key the score and reverse true: a stable sort by
descending score. -/
def sortDesc (l : List (Node × ℚ)) : List (Node × ℚ) :=
  l.foldl (fun acc x => insertDesc x acc) []

/-- The quantities main computes and exposes, besides printing. -/
structure MainResult where
  nIterStoch : Nat
  nStepsStoch : Nat
  topStoch : List (Node × ℚ)
  nIterDist : Nat
  topDist : List (Node × ℚ)
  speedup : ℚ
  deriving DecidableEq

/-- The orchestration of main: the stochastic run with n_iter the node
count squared and n_steps twice the diameter, the distribution run with
n_iter twice the diameter, the two top-20 rankings by descending score,
and the ratio of the two measured times (timing itself is external, the
two durations are inputs). -/
def main (web : Graph) (rnd : Nat → Nat) (timeStoch timeDist : ℚ) :
    Except PyError MainResult :=
  let n_iter := numNodes web ^ 2
  let n_steps := 2 * diameter
  match stochastic_page_rank web rnd n_iter n_steps with
  | .error e => .error e
  | .ok ranking =>
    let topS := (sortDesc ranking).take 20
    match distribution_page_rank web (2 * diameter) with
    | .error e => .error e
    | .ok ranking2 =>
      .ok ⟨n_iter, n_steps, topS, 2 * diameter,
           (sortDesc ranking2).take 20, timeStoch / timeDist⟩

/-- The two mutually linking nodes of the worked example. -/
def gAB : Graph := [(['A'], [['B']]), (['B'], [['A']])]

/-- The half-and-half distribution on the two nodes of gAB. -/
def dHalf : Dist := [(['A'], 1/2), (['B'], 1/2)]

/-- A graph with a zero-out-degree key listed before a key whose target
is dangling. -/
def gBad : Graph := [(['A'], []), (['B'], [['C']])]

/-- A single node linking to a dangling target. -/
def gDang : Graph := [(['A'], [['B']])]

/-- The quantities main computes on gAB with the all-zero random stream
and measured times six and three. -/
def mr0 : MainResult :=
  ⟨4, 6, [(['A'], 1), (['B'], 0)], 6, [(['A'], 1/2), (['B'], 1/2)], 2⟩

/-! Dictionary lemmas. -/

theorem keys_cons (p : Node × α) (rest : List (Node × α)) :
    keys (p :: rest) = p.1 :: keys rest := rfl

theorem lookupKey_cons (a : Node) (x : α) (rest : List (Node × α)) (k : Node) :
    lookupKey ((a, x) :: rest) k = if a = k then some x else lookupKey rest k := rfl

theorem lookupKey_eq_none_iff {d : List (Node × α)} {k : Node} :
    lookupKey d k = none ↔ k ∉ keys d := by
  induction d with
  | nil => simp [lookupKey, keys]
  | cons p rest ih =>
    obtain ⟨a, x⟩ := p
    rw [lookupKey_cons, keys_cons]
    by_cases hak : a = k
    · subst hak; simp
    · simp [hak, ih, Ne.symm hak]

theorem lookupKey_some_mem_keys {d : List (Node × α)} {k : Node} {x : α}
    (h : lookupKey d k = some x) : k ∈ keys d := by
  by_contra hk
  rw [← lookupKey_eq_none_iff] at hk
  rw [h] at hk
  cases hk

theorem lookupKey_isSome_of_mem {d : List (Node × α)} {k : Node} (h : k ∈ keys d) :
    ∃ x, lookupKey d k = some x := by
  cases hx : lookupKey d k with
  | none => exact absurd (lookupKey_eq_none_iff.mp hx) (by simpa using h)
  | some x => exact ⟨x, rfl⟩

theorem lookupKey_mem {d : List (Node × α)} {k : Node} {x : α}
    (h : lookupKey d k = some x) : (k, x) ∈ d := by
  induction d with
  | nil => cases h
  | cons p rest ih =>
    obtain ⟨a, y⟩ := p
    rw [lookupKey_cons] at h
    by_cases hak : a = k
    · subst hak
      simp at h
      subst h
      exact List.mem_cons_self _ _
    · simp [hak] at h
      exact List.mem_cons_of_mem _ (ih h)

theorem lookupKey_of_nodup {d : List (Node × α)} {k : Node} {x : α}
    (hnd : (keys d).Nodup) (h : (k, x) ∈ d) : lookupKey d k = some x := by
  induction d with
  | nil => cases h
  | cons p rest ih =>
    obtain ⟨a, y⟩ := p
    rw [keys_cons] at hnd
    rw [lookupKey_cons]
    rcases List.mem_cons.mp h with h | h
    · cases h
      simp
    · have hak : a ≠ k := by
        rintro rfl
        have h2 := List.mem_map_of_mem Prod.fst h
        exact (List.nodup_cons.mp hnd).1 h2
      simp only [hak, if_false]
      exact ih (List.nodup_cons.mp hnd).2 h

theorem keys_zeroDist (g : Graph) : keys (zeroDist g) = keys g := by
  simp [keys, zeroDist, List.map_map]

theorem keys_uniformDist (g : Graph) : keys (uniformDist g) = keys g := by
  simp [keys, uniformDist, List.map_map]

theorem sumValues_zeroDist (g : Graph) : sumValues (zeroDist g) = 0 := by
  induction g with
  | nil => rfl
  | cons p rest ih => simpa [zeroDist, sumValues] using ih

theorem sumValues_cons (p : Node × ℚ) (rest : Dist) :
    sumValues (p :: rest) = p.2 + sumValues rest := by
  simp [sumValues]

/-! Lemmas about the dict update d[k] += v. -/

theorem addKey_eq_none_iff {d : Dist} {k : Node} {v : ℚ} :
    addKey d k v = none ↔ k ∉ keys d := by
  induction d with
  | nil => simp [addKey, keys]
  | cons p rest ih =>
    obtain ⟨a, x⟩ := p
    rw [keys_cons]
    by_cases hak : a = k
    · subst hak; simp [addKey]
    · simp [addKey, hak, Option.map_eq_none', ih, Ne.symm hak]

theorem addKey_exists {d : Dist} {k : Node} (v : ℚ) (h : k ∈ keys d) :
    ∃ d2, addKey d k v = some d2 := by
  cases hx : addKey d k v with
  | none => exact absurd (addKey_eq_none_iff.mp hx) (by simpa using h)
  | some d2 => exact ⟨d2, rfl⟩

theorem addKey_some {d d2 : Dist} {k : Node} {v : ℚ}
    (h : addKey d k v = some d2) :
    keys d2 = keys d ∧ sumValues d2 = sumValues d + v := by
  induction d generalizing d2 with
  | nil => cases h
  | cons p rest ih =>
    obtain ⟨a, x⟩ := p
    by_cases hak : a = k
    · subst hak
      simp [addKey] at h
      subst h
      constructor
      · rfl
      · simp [sumValues_cons]; ring
    · simp [addKey, hak, Option.map_eq_some'] at h
      obtain ⟨r, hr, rfl⟩ := h
      obtain ⟨hk, hs⟩ := ih hr
      constructor
      · simp [keys_cons, hk]
      · simp [sumValues_cons, hs]; ring

/-! Lemmas about the inner target loop of a sweep. -/

theorem addTargets_ok {p : ℚ} {d d2 : Dist} {ts : List Node}
    (h : addTargets p d ts = .ok d2) :
    keys d2 = keys d ∧ sumValues d2 = sumValues d + ts.length * p := by
  induction ts generalizing d with
  | nil =>
    simp [addTargets] at h
    subst h
    simp
  | cons t ts ih =>
    rw [addTargets] at h
    cases hk : addKey d t p with
    | none => rw [hk] at h; cases h
    | some d1 =>
      rw [hk] at h
      obtain ⟨hkeys, hsum⟩ := addKey_some hk
      obtain ⟨hkeys2, hsum2⟩ := ih h
      refine ⟨hkeys2.trans hkeys, ?_⟩
      rw [hsum2, hsum, List.length_cons]
      push_cast
      ring

theorem addTargets_exists {p : ℚ} {d : Dist} {ts : List Node}
    (h : ∀ t ∈ ts, t ∈ keys d) : ∃ d2, addTargets p d ts = .ok d2 := by
  induction ts generalizing d with
  | nil => exact ⟨d, rfl⟩
  | cons t ts ih =>
    obtain ⟨d1, hd1⟩ := addKey_exists p (h t (List.mem_cons_self _ _))
    obtain ⟨d2, hd2⟩ := ih (fun t2 ht2 => by
      rw [(addKey_some hd1).1]
      exact h t2 (List.mem_cons_of_mem _ ht2))
    exact ⟨d2, by rw [addTargets, hd1]; exact hd2⟩

theorem addTargets_error_shape {p : ℚ} {d : Dist} {ts : List Node} {e : PyError}
    (h : addTargets p d ts = .error e) : ∃ t, e = .keyError t := by
  induction ts generalizing d with
  | nil => cases h
  | cons t ts ih =>
    rw [addTargets] at h
    cases hk : addKey d t p with
    | none => rw [hk] at h; exact ⟨t, (Except.error.injEq .. ▸ h).symm⟩
    | some d1 => rw [hk] at h; exact ih h

theorem addTargets_error_of_dangling {p : ℚ} {d : Dist} {ts : List Node}
    (h : ∃ t ∈ ts, t ∉ keys d) :
    ∃ t, t ∉ keys d ∧ addTargets p d ts = .error (.keyError t) := by
  induction ts generalizing d with
  | nil => simp at h
  | cons t ts ih =>
    by_cases hm : t ∈ keys d
    · obtain ⟨d1, hd1⟩ := addKey_exists p hm
      have hkeys := (addKey_some hd1).1
      obtain ⟨t2, ht2, ht2n⟩ := h
      rcases List.mem_cons.mp ht2 with rfl | ht2
      · exact absurd hm ht2n
      · obtain ⟨t3, ht3, hres⟩ := ih ⟨t2, ht2, by rw [hkeys]; exact ht2n⟩
        exact ⟨t3, by rw [← hkeys]; exact ht3, by rw [addTargets, hd1]; exact hres⟩
    · have : addKey d t p = none := addKey_eq_none_iff.mpr hm
      exact ⟨t, hm, by simp [addTargets, this]⟩

/-! Lemmas about one sweep of the distribution estimator. -/

theorem sweepAux_ok {np : Dist} {gs : List (Node × List Node)} {next next2 : Dist}
    (h : sweepAux np gs next = .ok next2) :
    keys next2 = keys next ∧
      sumValues next2 =
        sumValues next + (gs.map (fun p => (lookupKey np p.1).getD 0)).sum := by
  induction gs generalizing next with
  | nil =>
    simp [sweepAux] at h
    subst h
    simp
  | cons p rest ih =>
    obtain ⟨n, ts⟩ := p
    rw [sweepAux] at h
    cases hq : lookupKey np n with
    | none => rw [hq] at h; cases h
    | some q =>
      simp only [hq] at h
      by_cases hlen : ts.length = 0
      · rw [if_pos hlen] at h; cases h
      · rw [if_neg hlen] at h
        cases hat : addTargets (q / (ts.length : ℚ)) next ts with
        | error e => rw [hat] at h; cases h
        | ok next1 =>
          rw [hat] at h
          obtain ⟨hk1, hs1⟩ := addTargets_ok hat
          obtain ⟨hk2, hs2⟩ := ih h
          refine ⟨hk2.trans hk1, ?_⟩
          rw [hs2, hs1]
          have hts : (ts.length : ℚ) ≠ 0 := by
            exact_mod_cast hlen
          rw [mul_div_cancel₀ q hts]
          simp [hq]
          ring

theorem sweepAux_exists {np : Dist} {gs : List (Node × List Node)} {next : Dist}
    (h1 : ∀ p ∈ gs, p.1 ∈ keys np) (h2 : ∀ p ∈ gs, p.2 ≠ [])
    (h3 : ∀ p ∈ gs, ∀ t ∈ p.2, t ∈ keys next) :
    ∃ next2, sweepAux np gs next = .ok next2 := by
  induction gs generalizing next with
  | nil => exact ⟨next, rfl⟩
  | cons p rest ih =>
    obtain ⟨n, ts⟩ := p
    obtain ⟨q, hq⟩ := lookupKey_isSome_of_mem (h1 (n, ts) (List.mem_cons_self _ _))
    have hq2 : lookupKey np n = some q := hq
    have hlen : ts.length ≠ 0 := by
      intro hl
      exact h2 (n, ts) (List.mem_cons_self _ _) (List.length_eq_zero.mp hl)
    obtain ⟨next1, hat⟩ := addTargets_exists (p := q / (ts.length : ℚ))
      (fun t ht => h3 (n, ts) (List.mem_cons_self _ _) t ht)
    have hat2 : addTargets (q / (ts.length : ℚ)) next ts = .ok next1 := hat
    have hk1 := (addTargets_ok hat2).1
    obtain ⟨next2, hrest⟩ := ih
      (fun p hp => h1 p (List.mem_cons_of_mem _ hp))
      (fun p hp => h2 p (List.mem_cons_of_mem _ hp))
      (fun p hp t ht => by rw [hk1]; exact h3 p (List.mem_cons_of_mem _ hp) t ht)
    refine ⟨next2, ?_⟩
    rw [sweepAux]
    simp only [hq2, if_neg hlen, hat2]
    exact hrest

theorem sweepAux_ne_zeroDiv {np : Dist} {gs : List (Node × List Node)} {next : Dist}
    (h2 : ∀ p ∈ gs, p.2 ≠ []) :
    sweepAux np gs next ≠ .error .zeroDivisionError := by
  induction gs generalizing next with
  | nil => simp [sweepAux]
  | cons p rest ih =>
    obtain ⟨n, ts⟩ := p
    rw [sweepAux]
    cases hq : lookupKey np n with
    | none => simp
    | some q =>
      have hlen : ts.length ≠ 0 := by
        intro hl
        exact h2 (n, ts) (List.mem_cons_self _ _) (List.length_eq_zero.mp hl)
      simp only [if_neg hlen]
      cases hat : addTargets (q / (ts.length : ℚ)) next ts with
      | error e =>
        obtain ⟨t, rfl⟩ := addTargets_error_shape hat
        simp
      | ok next1 =>
        simp only [hat]
        exact ih (fun p hp => h2 p (List.mem_cons_of_mem _ hp))

theorem sweepAux_error_of_dangling {np : Dist} {gs : List (Node × List Node)}
    {next : Dist}
    (h1 : ∀ p ∈ gs, p.1 ∈ keys np) (h2 : ∀ p ∈ gs, p.2 ≠ [])
    (hd : ∃ p ∈ gs, ∃ t ∈ p.2, t ∉ keys next) :
    ∃ t, t ∉ keys next ∧ sweepAux np gs next = .error (.keyError t) := by
  induction gs generalizing next with
  | nil => simp at hd
  | cons p rest ih =>
    obtain ⟨n, ts⟩ := p
    obtain ⟨q, hq⟩ := lookupKey_isSome_of_mem (h1 (n, ts) (List.mem_cons_self _ _))
    have hq2 : lookupKey np n = some q := hq
    have hlen : ts.length ≠ 0 := by
      intro hl
      exact h2 (n, ts) (List.mem_cons_self _ _) (List.length_eq_zero.mp hl)
    by_cases hts : ∃ t ∈ ts, t ∉ keys next
    · obtain ⟨t, htn, hat⟩ := addTargets_error_of_dangling
        (p := q / (ts.length : ℚ)) hts
      refine ⟨t, htn, ?_⟩
      rw [sweepAux]
      simp only [hq2, if_neg hlen, hat]
    · push_neg at hts
      obtain ⟨next1, hat⟩ := addTargets_exists (p := q / (ts.length : ℚ)) hts
      have hat2 : addTargets (q / (ts.length : ℚ)) next ts = .ok next1 := hat
      have hk1 := (addTargets_ok hat2).1
      obtain ⟨p2, hp2, t2, ht2, ht2n⟩ := hd
      rcases List.mem_cons.mp hp2 with rfl | hp2
      · exact absurd ht2n (by simpa using hts t2 ht2)
      · obtain ⟨t3, ht3n, hres⟩ := ih
          (fun p hp => h1 p (List.mem_cons_of_mem _ hp))
          (fun p hp => h2 p (List.mem_cons_of_mem _ hp))
          ⟨p2, hp2, t2, ht2, by rw [hk1]; exact ht2n⟩
        refine ⟨t3, by rw [← hk1]; exact ht3n, ?_⟩
        rw [sweepAux]
        simp only [hq2, if_neg hlen, hat2]
        exact hres

/-- Summing the looked-up values over the key list of a dict with
distinct keys gives the sum of the values. -/
theorem keysum {np : Dist} (hnd : (keys np).Nodup) :
    ((keys np).map (fun n => (lookupKey np n).getD 0)).sum = sumValues np := by
  induction np with
  | nil => rfl
  | cons p rest ih =>
    obtain ⟨a, x⟩ := p
    rw [keys_cons] at hnd ⊢
    obtain ⟨hna, hnd2⟩ := List.nodup_cons.mp hnd
    rw [List.map_cons, List.sum_cons, sumValues_cons]
    have hsame : (keys rest).map (fun n => (lookupKey ((a, x) :: rest) n).getD 0) =
        (keys rest).map (fun n => (lookupKey rest n).getD 0) := by
      apply List.map_congr_left
      intro k hk
      have hak : a ≠ k := fun he => hna (he ▸ hk)
      rw [lookupKey_cons, if_neg hak]
    rw [hsame, ih hnd2, lookupKey_cons, if_pos rfl]
    rfl

/-! Lemmas about whole sweeps and the sweep loop. -/

theorem outDegree_pos_mem {g : Graph} {n : Node} (h : 0 < outDegree g n) :
    n ∈ keys g := by
  cases hl : lookupKey g n with
  | none => rw [outDegree, hl] at h; simp at h
  | some ts => exact lookupKey_some_mem_keys hl

theorem pos_nonempty {g : Graph} (hnd : (keys g).Nodup) (hp : positiveOutClosed g) :
    ∀ p ∈ g, p.2 ≠ [] := by
  intro p hm he
  have h1 := hp.1 p hm
  have hm2 : (p.1, p.2) ∈ g := by simpa using hm
  rw [outDegree, lookupKey_of_nodup hnd hm2, he] at h1
  simp at h1

theorem pos_closed {g : Graph} (hp : positiveOutClosed g) :
    ∀ p ∈ g, ∀ t ∈ p.2, t ∈ keys g := by
  intro p hm t ht
  exact outDegree_pos_mem (hp.2 p hm t ht)

theorem sweep_sum {g : Graph} {np np2 : Dist} (hnd : (keys g).Nodup)
    (hk : keys np = keys g) (h : sweep g np = .ok np2) :
    keys np2 = keys g ∧ sumValues np2 = sumValues np := by
  obtain ⟨hkeys, hsum⟩ := sweepAux_ok h
  rw [keys_zeroDist] at hkeys
  refine ⟨hkeys, ?_⟩
  rw [hsum, sumValues_zeroDist, zero_add]
  have hmap : g.map (fun p => (lookupKey np p.1).getD 0) =
      (keys g).map fun n => (lookupKey np n).getD 0 := by
    rw [keys, List.map_map]
    rfl
  rw [hmap, ← hk, keysum (by rw [hk]; exact hnd)]

theorem sweep_exists {g : Graph} {np : Dist}
    (hpos : ∀ p ∈ g, p.2 ≠ []) (hcl : ∀ p ∈ g, ∀ t ∈ p.2, t ∈ keys g)
    (hk : keys np = keys g) : ∃ np2, sweep g np = .ok np2 := by
  refine sweepAux_exists ?_ hpos ?_
  · intro p hp
    rw [hk]
    exact List.mem_map_of_mem Prod.fst hp
  · intro p hp t ht
    rw [keys_zeroDist]
    exact hcl p hp t ht

theorem dprIter_ok {g : Graph} (hnd : (keys g).Nodup)
    (hpos : ∀ p ∈ g, p.2 ≠ []) (hcl : ∀ p ∈ g, ∀ t ∈ p.2, t ∈ keys g) :
    ∀ (k : Nat) (np : Dist), keys np = keys g →
      ∃ d, dprIter g k np = .ok d ∧ keys d = keys g ∧ sumValues d = sumValues np := by
  intro k
  induction k with
  | zero => exact fun np hk => ⟨np, rfl, hk, rfl⟩
  | succ k ih =>
    intro np hk
    obtain ⟨np2, hs⟩ := sweep_exists hpos hcl hk
    obtain ⟨hknp2, hsum2⟩ := sweep_sum hnd hk hs
    obtain ⟨d, hd, hkd, hsd⟩ := ih np2 hknp2
    refine ⟨d, ?_, hkd, by rw [hsd, hsum2]⟩
    rw [dprIter, hs]
    exact hd

theorem dprIter_ne_zeroDiv {g : Graph} (hpos : ∀ p ∈ g, p.2 ≠ []) :
    ∀ (k : Nat) (np : Dist), dprIter g k np ≠ .error .zeroDivisionError := by
  intro k
  induction k with
  | zero => intro np h; cases h
  | succ k ih =>
    intro np
    rw [dprIter]
    cases hs : sweep g np with
    | error e =>
      intro h
      have he : e = .zeroDivisionError := by
        cases h
        rfl
      rw [he] at hs
      exact sweepAux_ne_zeroDiv hpos hs
    | ok np2 => exact ih np2

theorem dprIter_add {g : Graph} :
    ∀ (n : Nat) (np d : Dist), dprIter g n np = .ok d →
      ∀ m, dprIter g (n + m) np = dprIter g m d := by
  intro n
  induction n with
  | zero =>
    intro np d h m
    cases h
    rw [Nat.zero_add]
  | succ n ih =>
    intro np d h m
    rw [dprIter] at h
    cases hs : sweep g np with
    | error e => rw [hs] at h; cases h
    | ok np2 =>
      rw [hs] at h
      have hadd : n + 1 + m = (n + m) + 1 := by omega
      rw [hadd, dprIter]
      simp only [hs]
      exact ih np2 d h m

theorem sumValues_uniform {g : Graph} (h : g ≠ []) :
    sumValues (uniformDist g) = 1 := by
  have hmap : (uniformDist g).map Prod.snd =
      List.replicate g.length (1 / (g.length : ℚ)) := by
    rw [uniformDist, List.map_map]
    exact List.map_const' g _
  rw [sumValues, hmap, List.sum_replicate, nsmul_eq_mul]
  have hlen : (g.length : ℚ) ≠ 0 := by
    simpa using List.length_eq_zero.not.mpr h
  field_simp

/-! Lemmas about the stochastic estimator. -/

theorem pyChoice_ok {l : List Node} (r : Nat) (h : l ≠ []) :
    ∃ x, pyChoice r l = .ok x ∧ x ∈ l := by
  have hne : l.isEmpty = false := by
    cases l with
    | nil => exact absurd rfl h
    | cons a as => rfl
  have hlt : r % l.length < l.length :=
    Nat.mod_lt r (List.length_pos.mpr h)
  refine ⟨l.getD (r % l.length) [], ?_, ?_⟩
  · rw [pyChoice, hne]
    rfl
  · rw [List.getD_eq_getElem l [] hlt]
    exact List.getElem_mem hlt

theorem keyEntry_of_mem {g : Graph} (hp : positiveOutClosed g) {n : Node}
    (h : n ∈ keys g) :
    ∃ ts, lookupKey g n = some ts ∧ ts ≠ [] ∧ (n, ts) ∈ g := by
  obtain ⟨ts, hts⟩ := lookupKey_isSome_of_mem h
  have hmem := lookupKey_mem hts
  refine ⟨ts, hts, ?_, hmem⟩
  intro he
  have h1 := hp.1 (n, ts) hmem
  rw [outDegree] at h1
  simp only at h1
  rw [hts, he] at h1
  simp at h1

theorem walk_ok {g : Graph} (rnd : Nat → Nat) (hp : positiveOutClosed g) :
    ∀ (steps : Nat) (cur : Node) (c : Nat), cur ∈ keys g →
      ∃ landing c2, walk g rnd steps cur c = .ok (landing, c2) ∧ landing ∈ keys g := by
  intro steps
  induction steps with
  | zero => exact fun cur c h => ⟨cur, c, rfl, h⟩
  | succ k ih =>
    intro cur c hcur
    obtain ⟨ts, hts, htne, hmem⟩ := keyEntry_of_mem hp hcur
    obtain ⟨nxt, hch, hnxt⟩ := pyChoice_ok (rnd c) htne
    have hnk : nxt ∈ keys g := outDegree_pos_mem (hp.2 (cur, ts) hmem nxt hnxt)
    obtain ⟨landing, c2, hw, hl⟩ := ih nxt (c + 1) hnk
    refine ⟨landing, c2, ?_, hl⟩
    rw [walk]
    simp only [hts, hch]
    exact hw

theorem sprLoop_ok {g : Graph} (rnd : Nat → Nat) (n_total n_steps : Nat)
    (hne : g ≠ []) (hp : positiveOutClosed g) :
    ∀ (k : Nat) (hc : Dist) (c : Nat), keys hc = keys g →
      ∃ hc2 c2, sprLoop g rnd n_total n_steps k hc c = .ok (hc2, c2) ∧
        keys hc2 = keys g ∧
        sumValues hc2 = sumValues hc + k * (1 / (n_total : ℚ)) := by
  intro k
  induction k with
  | zero =>
    intro hc c hk
    exact ⟨hc, c, rfl, hk, by simp⟩
  | succ k ih =>
    intro hc c hk
    have hkg : keys g ≠ [] := by
      cases g with
      | nil => exact absurd rfl hne
      | cons p rest => simp [keys_cons]
    obtain ⟨start, hch, hst⟩ := pyChoice_ok (rnd c) hkg
    obtain ⟨landing, c2, hw, hl⟩ := walk_ok rnd hp n_steps start (c + 1) hst
    obtain ⟨hc1, hadd⟩ := addKey_exists (1 / (n_total : ℚ)) (by rw [hk]; exact hl)
    obtain ⟨hkeys1, hsum1⟩ := addKey_some hadd
    obtain ⟨hc2, c3, hloop, hkeys2, hsum2⟩ := ih hc1 c2 (hkeys1.trans hk)
    refine ⟨hc2, c3, ?_, hkeys2, ?_⟩
    · rw [sprLoop]
      simp only [hch, hw, hadd]
      exact hloop
    · rw [hsum2, hsum1]
      push_cast
      ring

/-! Lemmas about graph loading. -/

theorem parseLine_ok_of {l : List Char} {n t : Node} (h : splitWS l = [n, t]) :
    parseLine l = .ok (n, t) := by
  rw [parseLine, h]

theorem parseLine_shape (l : List Char) :
    (∃ n t, splitWS l = [n, t] ∧ parseLine l = .ok (n, t)) ∨
      ((splitWS l).length ≠ 2 ∧ parseLine l = .error .formatError) := by
  rcases hsp : splitWS l with _ | ⟨a, _ | ⟨b, _ | ⟨c, r⟩⟩⟩
  · exact Or.inr ⟨by simp, by rw [parseLine, hsp]⟩
  · exact Or.inr ⟨by simp, by rw [parseLine, hsp]⟩
  · exact Or.inl ⟨a, b, rfl, by rw [parseLine, hsp]⟩
  · exact Or.inr ⟨by simp, by rw [parseLine, hsp]⟩

theorem parseLine_err_of {l : List Char} (h : (splitWS l).length ≠ 2) :
    parseLine l = .error .formatError := by
  rcases parseLine_shape l with ⟨n, t, hsp, _⟩ | ⟨_, he⟩
  · exact absurd (by rw [hsp]; rfl) h
  · exact he

theorem parseLine_ok_len {l : List Char} {n t : Node}
    (h : parseLine l = .ok (n, t)) : splitWS l = [n, t] := by
  rcases parseLine_shape l with ⟨n2, t2, hsp, he⟩ | ⟨_, he⟩
  · rw [he] at h
    cases h
    exact hsp
  · rw [he] at h
    cases h

theorem appendEdge_nonempty {g : Graph} {n t : Node}
    (h : ∀ p ∈ g, p.2 ≠ []) : ∀ p ∈ appendEdge g n t, p.2 ≠ [] := by
  induction g with
  | nil =>
    intro p hp
    rw [appendEdge] at hp
    rcases List.mem_cons.mp hp with rfl | hp
    · simp
    · cases hp
  | cons q rest ih =>
    obtain ⟨a, ts⟩ := q
    intro p hp
    rw [appendEdge] at hp
    by_cases han : a = n
    · rw [if_pos han] at hp
      rcases List.mem_cons.mp hp with rfl | hp
      · simp
      · exact h p (List.mem_cons_of_mem _ hp)
    · rw [if_neg han] at hp
      rcases List.mem_cons.mp hp with rfl | hp
      · exact h (a, ts) (List.mem_cons_self _ _)
      · exact ih (fun p2 hp2 => h p2 (List.mem_cons_of_mem _ hp2)) p hp

theorem appendEdge_lookup_self (g : Graph) (n t : Node) :
    lookupKey (appendEdge g n t) n = some ((lookupKey g n).getD [] ++ [t]) := by
  induction g with
  | nil => simp [appendEdge, lookupKey]
  | cons q rest ih =>
    obtain ⟨a, ts⟩ := q
    rw [appendEdge]
    by_cases han : a = n
    · rw [if_pos han, lookupKey_cons, if_pos han, lookupKey_cons, if_pos han]
      rfl
    · rw [if_neg han, lookupKey_cons, if_neg han, lookupKey_cons, if_neg han]
      exact ih

theorem appendEdge_lookup_other {g : Graph} {n k : Node} (t : Node) (h : k ≠ n) :
    lookupKey (appendEdge g n t) k = lookupKey g k := by
  induction g with
  | nil => simp [appendEdge, lookupKey, Ne.symm h]
  | cons q rest ih =>
    obtain ⟨a, ts⟩ := q
    rw [appendEdge]
    by_cases han : a = n
    · have hak : a ≠ k := fun he => h (he.symm.trans han)
      rw [if_pos han, lookupKey_cons, if_neg hak, lookupKey_cons, if_neg hak]
    · rw [if_neg han, lookupKey_cons, lookupKey_cons]
      by_cases hak : a = k
      · rw [if_pos hak, if_pos hak]
      · rw [if_neg hak, if_neg hak]
        exact ih

theorem appendEdge_not_mem {g : Graph} {n : Node} (t : Node) (h : n ∉ keys g) :
    appendEdge g n t = g ++ [(n, [t])] := by
  induction g with
  | nil => rfl
  | cons q rest ih =>
    obtain ⟨a, ts⟩ := q
    rw [keys_cons] at h
    have han : a ≠ n := fun he => h (he ▸ List.mem_cons_self _ _)
    rw [appendEdge, if_neg han, List.cons_append]
    rw [ih fun hm => h (List.mem_cons_of_mem _ hm)]

theorem loadAux_nonempty {ls : List (List Char)} :
    ∀ {g g2 : Graph}, (∀ p ∈ g, p.2 ≠ []) → loadAux g ls = .ok g2 →
      ∀ p ∈ g2, p.2 ≠ [] := by
  induction ls with
  | nil =>
    intro g g2 hg h
    cases h
    exact hg
  | cons l ls ih =>
    intro g g2 hg h
    rw [loadAux] at h
    rcases parseLine_shape l with ⟨n, t, _, he⟩ | ⟨_, he⟩
    · rw [he] at h
      exact ih (appendEdge_nonempty hg) h
    · rw [he] at h
      cases h

theorem loadAux_ok_iff {ls : List (List Char)} :
    ∀ {g : Graph}, okB (loadAux g ls) = true ↔ ∀ l ∈ ls, (splitWS l).length = 2 := by
  induction ls with
  | nil => intro g; simp [loadAux, okB]
  | cons l ls ih =>
    intro g
    rw [loadAux]
    rcases parseLine_shape l with ⟨n, t, hsp, he⟩ | ⟨hlen, he⟩
    · rw [he]
      simp only [List.mem_cons]
      constructor
      · intro h l2 hl2
        rcases hl2 with rfl | hl2
        · rw [hsp]; rfl
        · exact (ih.mp h) l2 hl2
      · intro h
        exact ih.mpr fun l2 hl2 => h l2 (Or.inr hl2)
    · rw [he]
      simp only [okB, List.mem_cons]
      constructor
      · intro h; cases h
      · intro h
        exact absurd (h l (Or.inl rfl)) hlen

theorem loadAux_error_eq {ls : List (List Char)} :
    ∀ {g : Graph} {e : PyError}, loadAux g ls = .error e → e = .formatError := by
  induction ls with
  | nil =>
    intro g e h
    cases h
  | cons l ls ih =>
    intro g e h
    rw [loadAux] at h
    rcases parseLine_shape l with ⟨n, t, _, he⟩ | ⟨_, he⟩
    · rw [he] at h
      exact ih h
    · rw [he] at h
      cases h
      rfl

/-! Lemmas about the descending stable sort of the driver. -/

theorem insertDesc_perm (x : Node × ℚ) (l : List (Node × ℚ)) :
    List.Perm (insertDesc x l) (x :: l) := by
  induction l with
  | nil => exact List.Perm.refl _
  | cons y ys ih =>
    rw [insertDesc]
    by_cases h : y.2 < x.2
    · rw [if_pos h]
    · rw [if_neg h]
      exact (ih.cons y).trans (List.Perm.swap x y ys)

theorem insertDesc_mem {x z : Node × ℚ} {l : List (Node × ℚ)} :
    z ∈ insertDesc x l ↔ z = x ∨ z ∈ l := by
  rw [(insertDesc_perm x l).mem_iff]
  simp

theorem insertDesc_sorted {x : Node × ℚ} {l : List (Node × ℚ)}
    (h : l.Pairwise (fun a b => b.2 ≤ a.2)) :
    (insertDesc x l).Pairwise (fun a b => b.2 ≤ a.2) := by
  induction l with
  | nil => simp [insertDesc]
  | cons y ys ih =>
    rw [insertDesc]
    obtain ⟨hy, hys⟩ := List.pairwise_cons.mp h
    by_cases hlt : y.2 < x.2
    · rw [if_pos hlt]
      refine List.pairwise_cons.mpr ⟨?_, h⟩
      intro z hz
      rcases List.mem_cons.mp hz with rfl | hz
      · exact le_of_lt hlt
      · exact (hy z hz).trans (le_of_lt hlt)
    · rw [if_neg hlt]
      refine List.pairwise_cons.mpr ⟨?_, ih hys⟩
      intro z hz
      rcases insertDesc_mem.mp hz with rfl | hz
      · exact le_of_not_lt hlt
      · exact hy z hz

theorem sortDesc_perm (l : List (Node × ℚ)) : List.Perm (sortDesc l) l := by
  have haux : ∀ (l acc : List (Node × ℚ)),
      List.Perm (l.foldl (fun a x => insertDesc x a) acc) (acc ++ l) := by
    intro l
    induction l with
    | nil => simp
    | cons x xs ih =>
      intro acc
      rw [List.foldl_cons]
      refine (ih (insertDesc x acc)).trans ?_
      refine (((insertDesc_perm x acc).append_right xs).trans ?_)
      rw [List.cons_append]
      exact (List.perm_middle).symm
  simpa using haux l []

theorem sortDesc_sorted (l : List (Node × ℚ)) :
    (sortDesc l).Pairwise (fun a b => b.2 ≤ a.2) := by
  have haux : ∀ (l acc : List (Node × ℚ)),
      acc.Pairwise (fun a b => b.2 ≤ a.2) →
        (l.foldl (fun a x => insertDesc x a) acc).Pairwise (fun a b => b.2 ≤ a.2) := by
    intro l
    induction l with
    | nil => exact fun acc h => h
    | cons x xs ih =>
      intro acc h
      rw [List.foldl_cons]
      exact ih _ (insertDesc_sorted h)
  exact haux l [] (List.Pairwise.nil)

/-! Claim theorems. -/

/-- Claim C1, counterexample: the empty graph vacuously satisfies the
positive-out-degree hypothesis, yet distribution_page_rank returns the
empty mapping, whose values sum to zero, not one. -/
theorem C1_counterexample :
    positiveOutClosed ([] : Graph) ∧
    distribution_page_rank ([] : Graph) 0 = .ok [] ∧
    sumValues ([] : Dist) ≠ 1 := by
  refine ⟨⟨?_, ?_⟩, rfl, ?_⟩
  · intro p hp; cases hp
  · intro p hp; cases hp
  · norm_num [sumValues]

/-- Claim C1 (amended): for every non-empty graph with distinct keys in
which every node, including every edge target, has positive out-degree,
the values of distribution_page_rank sum to exactly one for every
iteration count, and every successful sweep conserves the sum of the
probability mass. -/
theorem C1_mass_conservation (g : Graph) (hne : g ≠ [])
    (hnd : (keys g).Nodup) (hp : positiveOutClosed g) (k : Nat) :
    (distribution_page_rank g k).map sumValues = .ok 1 ∧
    ∀ np np2, keys np = keys g → sweep g np = .ok np2 →
      sumValues np2 = sumValues np := by
  have hpos := pos_nonempty hnd hp
  have hcl := pos_closed hp
  constructor
  · obtain ⟨d, hd, _, hsum⟩ :=
      dprIter_ok hnd hpos hcl k (uniformDist g) (keys_uniformDist g)
    have hd2 : distribution_page_rank g k = .ok d := hd
    rw [hd2]
    simp [Except.map, hsum, sumValues_uniform hne]
  · intro np np2 hk hs
    exact (sweep_sum hnd hk hs).2

/-- Witness for C1 at the two-node example graph with two sweeps. -/
theorem C1_witness :
    (distribution_page_rank gAB 2).map sumValues = .ok 1 :=
  (C1_mass_conservation gAB (by decide) (by decide) (by decide) 2).1

/-- Claim C2: for every non-empty graph, distribution_page_rank with
zero iterations performs no sweep and returns the uniform distribution
mapping every key to one over the node count. -/
theorem C2_uniform_at_zero (g : Graph) (hne : g ≠ []) :
    distribution_page_rank g 0 =
      .ok (g.map fun p => (p.1, 1 / (numNodes g : ℚ))) := rfl

/-- Witness for C2 at the two-node example graph. -/
theorem C2_witness :
    distribution_page_rank gAB 0 =
      .ok (gAB.map fun p => (p.1, 1 / (numNodes gAB : ℚ))) :=
  C2_uniform_at_zero gAB (by decide)

/-- Claim C3, counterexample: on the graph with a single node linking
only to a dangling target, one walk of one step lands on the dangling
target and the hit-count update fails with a key error, so no mapping is
returned at all and no sum can be one. -/
theorem C3_counterexample :
    stochastic_page_rank gDang (fun _ => 0) 1 1 = .error (.keyError ['B']) := by
  decide

/-- Claim C3 (amended): for every non-empty graph in which every node,
including every edge target, has positive out-degree, every random
stream, every number of iterations at least one and every number of
steps, stochastic_page_rank succeeds, the returned mapping keeps an
entry for every key of the graph in order, and its values sum to exactly
one, each of the walks contributing exactly one increment of one over
the iteration count. -/
theorem C3_stochastic_sum (g : Graph) (rnd : Nat → Nat) (n_iter n_steps : Nat)
    (hne : g ≠ []) (hp : positiveOutClosed g) (hn : 1 ≤ n_iter) :
    (stochastic_page_rank g rnd n_iter n_steps).map
        (fun d => (sumValues d, keys d)) = .ok (1, keys g) := by
  obtain ⟨hc2, c2, hloop, hkeys, hsum⟩ :=
    sprLoop_ok rnd n_iter n_steps hne hp n_iter (zeroDist g) 0 (keys_zeroDist g)
  have hn0 : (n_iter : ℚ) ≠ 0 := by
    have h1 : n_iter ≠ 0 := by omega
    exact_mod_cast h1
  have hsum2 : sumValues hc2 = 1 := by
    rw [hsum, sumValues_zeroDist, zero_add, mul_one_div, div_self hn0]
  rw [stochastic_page_rank]
  simp only [hloop]
  simp [Except.map, hsum2, hkeys]

/-- Witness for C3 at the two-node example graph. -/
theorem C3_witness :
    (stochastic_page_rank gAB (fun _ => 0) 4 6).map
        (fun d => (sumValues d, keys d)) = .ok (1, keys gAB) :=
  C3_stochastic_sum gAB (fun _ => 0) 4 6 (by decide) (by decide) (by decide)

/-- Claim C4: load_graph consumes lines of exactly two tokens, appending
the target to the adjacency sequence of the origin, creating the
sequence if absent and leaving other keys untouched; on the three
example lines it yields the two-node graph with three edges, and the
stats counts are the number of keys and the sum of the adjacency
sequence lengths. -/
theorem C4_load_append :
    (∀ (g : Graph) (n t : Node) (l : List Char) (ls : List (List Char)),
        splitWS l = [n, t] → loadAux g (l :: ls) = loadAux (appendEdge g n t) ls) ∧
    (∀ (g : Graph) (n t : Node),
        lookupKey (appendEdge g n t) n = some ((lookupKey g n).getD [] ++ [t]) ∧
        ∀ k, k ≠ n → lookupKey (appendEdge g n t) k = lookupKey g k) ∧
    (∀ (g : Graph) (n t : Node), n ∉ keys g →
        appendEdge g n t = g ++ [(n, [t])]) ∧
    load_graph [['A',' ','B'], ['A',' ','C'], ['B',' ','A']] =
      .ok [(['A'], [['B'],['C']]), (['B'], [['A']])] ∧
    numNodes [(['A'], [['B'],['C']]), (['B'], [['A']])] = 2 ∧
    numEdges [(['A'], [['B'],['C']]), (['B'], [['A']])] = 3 := by
  refine ⟨?_, ?_, ?_, by decide, rfl, rfl⟩
  · intro g n t l ls hsp
    rw [loadAux, parseLine_ok_of hsp]
  · intro g n t
    exact ⟨appendEdge_lookup_self g n t, fun k hk => appendEdge_lookup_other t hk⟩
  · intro g n t hm
    exact appendEdge_not_mem t hm

/-- Witness for C4: one two-token line is consumed by appending the
edge. -/
theorem C4_witness :
    loadAux [] [['A',' ','B']] = loadAux (appendEdge [] ['A'] ['B']) [] :=
  C4_load_append.1 [] ['A'] ['B'] ['A',' ','B'] [] (by decide)

/-- Claim C5: load_graph succeeds exactly when every line splits into
exactly two whitespace-separated tokens, every failure carries the
format error, and a malformed line aborts loading immediately whatever
lines follow. -/
theorem C5_format_error (lines : List (List Char)) :
    (okB (load_graph lines) = true ↔ ∀ l ∈ lines, (splitWS l).length = 2) ∧
    (∀ e, load_graph lines = .error e → e = .formatError) ∧
    ∀ (g : Graph) (l : List Char) (rest : List (List Char)),
      (splitWS l).length ≠ 2 → loadAux g (l :: rest) = .error .formatError := by
  refine ⟨loadAux_ok_iff, fun e h => loadAux_error_eq h, ?_⟩
  intro g l rest hlen
  rw [loadAux, parseLine_err_of hlen]

/-- Witness for C5: a blank line fails immediately with the format
error. -/
theorem C5_witness :
    loadAux [] [([] : List Char)] = .error .formatError :=
  (C5_format_error []).2.2 [] [] [] (by decide)

/-- Claim C6: every graph returned by load_graph maps every key to a
non-empty adjacency sequence, and consequently distribution_page_rank
never fails with a division by zero on such a graph. -/
theorem C6_loaded_safe (lines : List (List Char)) (g : Graph)
    (h : load_graph lines = .ok g) :
    (∀ p ∈ g, p.2 ≠ []) ∧
    ∀ k, distribution_page_rank g k ≠ .error .zeroDivisionError := by
  have hpos : ∀ p ∈ g, p.2 ≠ [] :=
    loadAux_nonempty (fun p hp => absurd hp (List.not_mem_nil p)) h
  exact ⟨hpos, fun k => dprIter_ne_zeroDiv hpos k (uniformDist g)⟩

/-- Witness for C6 at the two-line example input. -/
theorem C6_witness :
    distribution_page_rank gAB 1 ≠ .error .zeroDivisionError :=
  (C6_loaded_safe [['A',' ','B'], ['B',' ','A']] gAB (by decide)).2 1

/-- Claim C7: on the two mutually linking nodes, distribution_page_rank
returns the half-and-half distribution after any even number of
sweeps. -/
theorem C7_two_cycle (m : Nat) :
    distribution_page_rank gAB (2 * m) = .ok dHalf := by
  have hfix : sweep gAB dHalf = .ok dHalf := by
    simp +decide [sweep, sweepAux, zeroDist, lookupKey, addTargets, addKey, gAB, dHalf]
  have hiter : ∀ k, dprIter gAB k dHalf = .ok dHalf := by
    intro k
    induction k with
    | zero => rfl
    | succ k ih =>
      rw [dprIter]
      simp only [hfix]
      exact ih
  have huni : uniformDist gAB = dHalf := by
    norm_num [uniformDist, gAB, dHalf]
  rw [distribution_page_rank, huni]
  exact hiter (2 * m)

/-- Claim C8: sweeps compose, so continuing the sweep loop for m more
iterations from the output of distribution_page_rank after n iterations
equals running distribution_page_rank for n plus m iterations. -/
theorem C8_sweeps_compose (g : Graph) (n m : Nat) (d : Dist)
    (h : distribution_page_rank g n = .ok d) :
    dprIter g m d = distribution_page_rank g (n + m) :=
  (dprIter_add n (uniformDist g) d h m).symm

/-- Witness for C8 at the two-node example graph with one plus one
sweeps. -/
theorem C8_witness :
    dprIter gAB 1 dHalf = distribution_page_rank gAB (1 + 1) :=
  C8_sweeps_compose gAB 1 1 dHalf (by
    simp +decide [distribution_page_rank, dprIter, sweep, sweepAux, uniformDist,
      zeroDist, lookupKey, addTargets, addKey, gAB, dHalf])

/-- Claim C9: main computes the stochastic parameters as the node count
squared and twice the diameter, the distribution parameter as twice the
diameter, exposes the top twenty pairs of each result ranked by
descending score, and the speed ratio as the stochastic time divided by
the distribution time. -/
theorem C9_driver (web : Graph) (rnd : Nat → Nat) (tS tD : ℚ) (r : MainResult)
    (h : main web rnd tS tD = .ok r) :
    r.nIterStoch = numNodes web ^ 2 ∧
    r.nStepsStoch = 2 * diameter ∧
    r.nIterDist = 2 * diameter ∧
    r.speedup = tS / tD ∧
    (∃ d, stochastic_page_rank web rnd (numNodes web ^ 2) (2 * diameter) = .ok d ∧
      r.topStoch = (sortDesc d).take 20 ∧ List.Perm (sortDesc d) d ∧
      (sortDesc d).Pairwise fun a b => b.2 ≤ a.2) ∧
    ∃ d, distribution_page_rank web (2 * diameter) = .ok d ∧
      r.topDist = (sortDesc d).take 20 ∧ List.Perm (sortDesc d) d ∧
      (sortDesc d).Pairwise fun a b => b.2 ≤ a.2 := by
  simp only [main] at h
  cases hs : stochastic_page_rank web rnd (numNodes web ^ 2) (2 * diameter) with
  | error e => rw [hs] at h; cases h
  | ok d1 =>
    simp only [hs] at h
    cases hd : distribution_page_rank web (2 * diameter) with
    | error e => rw [hd] at h; cases h
    | ok d2 =>
      simp only [hd] at h
      cases h
      exact ⟨rfl, rfl, rfl, rfl,
        ⟨d1, rfl, rfl, sortDesc_perm d1, sortDesc_sorted d1⟩,
        ⟨d2, rfl, rfl, sortDesc_perm d2, sortDesc_sorted d2⟩⟩

/-- Witness for C9 at the two-node example graph with the all-zero
random stream and measured times six and three. -/
theorem C9_witness :
    mr0.nIterStoch = numNodes gAB ^ 2 ∧ mr0.nStepsStoch = 2 * diameter ∧
    mr0.nIterDist = 2 * diameter ∧ mr0.speedup = 6 / 3 := by
  obtain ⟨h1, h2, h3, h4, _⟩ := C9_driver gAB (fun _ => 0) 6 3 mr0 (by
    simp +decide [main, stochastic_page_rank, sprLoop, walk, pyChoice, keys,
      zeroDist, lookupKey, addKey, distribution_page_rank, dprIter, sweep,
      sweepAux, addTargets, uniformDist, sortDesc, insertDesc, numNodes,
      diameter, gAB, mr0]
    norm_num)
  exact ⟨h1, h2, h3, h4⟩

/-- Claim C10, counterexample: the graph gBad has a dangling target, yet
distribution_page_rank with one iteration fails with a division by zero
on the zero-out-degree key listed first, not with a key-lookup error. -/
theorem C10_counterexample :
    (∃ p ∈ gBad, ∃ t ∈ p.2, t ∉ keys gBad) ∧
    distribution_page_rank gBad 1 = .error .zeroDivisionError ∧
    isKeyErr (distribution_page_rank gBad 1) = false := by
  refine ⟨by decide, by decide, by decide⟩

/-- Claim C10 (amended): for every graph whose keys all have non-empty
adjacency sequences and in which some adjacency sequence contains a
dangling target, distribution_page_rank with at least one iteration
fails with a key-lookup error naming a dangling target, rather than a
division by zero, and returns no result. -/
theorem C10_dangling_keyError (g : Graph) (n : Nat)
    (hpos : ∀ p ∈ g, p.2 ≠ [])
    (hd : ∃ p ∈ g, ∃ t ∈ p.2, t ∉ keys g) (hn : 1 ≤ n) :
    isKeyErr (distribution_page_rank g n) = true ∧
    ∃ t, t ∉ keys g ∧ distribution_page_rank g n = .error (.keyError t) := by
  have h1 : ∀ p ∈ g, p.1 ∈ keys (uniformDist g) := by
    intro p hp
    rw [keys_uniformDist]
    exact List.mem_map_of_mem Prod.fst hp
  have hd2 : ∃ p ∈ g, ∃ t ∈ p.2, t ∉ keys (zeroDist g) := by
    rw [keys_zeroDist]
    exact hd
  obtain ⟨t, htn, hsw⟩ := sweepAux_error_of_dangling h1 hpos hd2
  have hsw2 : sweep g (uniformDist g) = .error (.keyError t) := hsw
  obtain ⟨k, rfl⟩ : ∃ k, n = k + 1 := ⟨n - 1, by omega⟩
  have hrun : distribution_page_rank g (k + 1) = .error (.keyError t) := by
    rw [distribution_page_rank, dprIter]
    simp only [hsw2]
  have htn2 : t ∉ keys g := by
    rw [← keys_zeroDist g]
    exact htn
  exact ⟨by rw [hrun]; rfl, t, htn2, hrun⟩

/-- Witness for C10 at the single dangling-target graph. -/
theorem C10_witness :
    isKeyErr (distribution_page_rank gDang 1) = true :=
  (C10_dangling_keyError gDang 1 (by decide) (by decide) (by decide)).1

end PageRank
